import Mathlib

/-!
Verification of the flask-cloudy storage core (src/flask_cloudy.py) via a
shallow embedding.  Python strings are modelled as `List Char`; the external
collaborators (libcloud driver, slugify, werkzeug secure_filename, shortuuid)
are modelled as oracle parameters of the embedding.
-/

namespace FlaskCloudy

abbrev PStr := List Char

/-- Suffix of `l` strictly after the last occurrence of `c`
(all of `l` when `c` does not occur).  Mirrors the `p[p.rfind(c)+1:]`
idiom of the Python standard library. -/
def takeAfterLast (c : Char) (l : PStr) : PStr :=
  (l.reverse.takeWhile (fun x => x != c)).reverse

/-- Prefix of `l` up to and including the last occurrence of `c`
(empty when `c` does not occur). -/
def dropThroughLast (c : Char) (l : PStr) : PStr :=
  (l.reverse.dropWhile (fun x => x != c)).reverse

/-- Python `str.lstrip` specialised to a character predicate. -/
def pyLstrip (p : Char → Bool) (l : PStr) : PStr := l.dropWhile p

/-- Drop the longest suffix whose characters satisfy `p`. -/
def dropTrail (p : Char → Bool) (l : PStr) : PStr :=
  (l.reverse.dropWhile p).reverse

/-- Python `str.strip` specialised to a character predicate. -/
def pyStrip (p : Char → Bool) (l : PStr) : PStr :=
  dropTrail p (l.dropWhile p)

def isSlashCh (c : Char) : Bool := c == '/'

/-- The characters Python `str.strip()` removes: exactly those for which
`str.isspace()` is true — U+0009..U+000D, U+001C..U+001F, the space,
U+0085, U+00A0, U+1680, U+2000..U+200A, U+2028, U+2029, U+202F, U+205F
and U+3000. -/
def pyWsChars : PStr :=
  [ '\x09', '\x0a', '\x0b', '\x0c', '\x0d', '\x1c', '\x1d', '\x1e',
    '\x1f', ' ', '\x85', '\xa0', '\u1680', '\u2000', '\u2001', '\u2002',
    '\u2003', '\u2004', '\u2005', '\u2006', '\u2007', '\u2008', '\u2009',
    '\u200a', '\u2028', '\u2029', '\u202f', '\u205f', '\u3000']

/-- Whether `c` is whitespace for Python's `str.strip()`. -/
def isPyWs (c : Char) : Bool := pyWsChars.contains c

example : isPyWs '\x1c' = true := by decide
example : isPyWs '\xa0' = true := by decide
example : isPyWs '/' = false := by decide

/-- The ASCII upper-to-lower table realising Python `str.lower` on the
letters used throughout the repository. -/
def lowerTable : List (Char × Char) :=
  [('A', 'a'), ('B', 'b'), ('C', 'c'), ('D', 'd'), ('E', 'e'), ('F', 'f'),
   ('G', 'g'), ('H', 'h'), ('I', 'i'), ('J', 'j'), ('K', 'k'), ('L', 'l'),
   ('M', 'm'), ('N', 'n'), ('O', 'o'), ('P', 'p'), ('Q', 'q'), ('R', 'r'),
   ('S', 's'), ('T', 't'), ('U', 'u'), ('V', 'v'), ('W', 'w'), ('X', 'x'),
   ('Y', 'y'), ('Z', 'z')]

/-- ASCII lower-casing of one character. -/
def pyToLower (c : Char) : Char :=
  match lowerTable.find? (fun q => q.1 == c) with
  | some q => q.2
  | none => c

def toLowerL (l : PStr) : PStr := l.map pyToLower

/-- `os.path.splitext` on POSIX paths: split the final path component at its
last dot, unless every character of that component before the last dot is
itself a dot (hidden files such as `.bashrc` are not split). -/
def splitext (p : PStr) : PStr × PStr :=
  if dropThroughLast '.' (takeAfterLast '/' p) = [] then (p, [])
  else if (dropThroughLast '.' (takeAfterLast '/' p)).dropLast.all
      (fun c => c == '.') then (p, [])
  else (dropThroughLast '/' p ++ (dropThroughLast '.' (takeAfterLast '/' p)).dropLast,
    '.' :: takeAfterLast '.' (takeAfterLast '/' p))

/-- `get_file_name` of the source: `os.path.basename(filename)`. -/
def get_file_name (filename : PStr) : PStr := takeAfterLast '/' filename

/-- `get_file_extension` of the source:
`os.path.splitext(filename)[1][1:].lower()`. -/
def get_file_extension (filename : PStr) : PStr :=
  toLowerL ((splitext filename).2.drop 1)

example : pyStrip isPyWs (pyStrip isSlashCh ( "\x1c/x.txt".data)) =
  ( "/x.txt".data) := by decide
example : pyStrip isPyWs (pyStrip isSlashCh ( " /x.txt".data)) =
  ( "/x.txt".data) := by decide

example : get_file_extension ( "hello.JPG".data) = ( "jpg".data) := by decide
example : get_file_extension ( ".gitignore".data) = [] := by decide
example : get_file_extension ( "a/b.txt".data) = ( "txt".data) := by decide
example : get_file_extension ( "a.b/c".data) = [] := by decide
example : splitext ( "x.".data) = ( "x".data, ".".data) := by decide

/-! ## The extension table (`EXTENSIONS` of the source) -/

def extText : List PStr := [ "txt".data, "md".data]

def extDocument : List PStr :=
  [ "rtf".data, "odf".data, "ods".data, "gnumeric".data, "abw".data,
    "doc".data, "docx".data, "xls".data, "xlsx".data]

def extImage : List PStr :=
  [ "jpg".data, "jpeg".data, "jpe".data, "png".data, "gif".data,
    "svg".data, "bmp".data, "webp".data]

def extAudio : List PStr :=
  [ "wav".data, "mp3".data, "aac".data, "ogg".data, "oga".data, "flac".data]

def extData : List PStr :=
  [ "csv".data, "ini".data, "json".data, "plist".data, "xml".data,
    "yaml".data, "yml".data]

def extScript : List PStr :=
  [ "js".data, "php".data, "pl".data, "py".data, "rb".data, "sh".data]

def extArchive : List PStr :=
  [ "gz".data, "bz2".data, "zip".data, "tar".data, "tgz".data,
    "txz".data, "7z".data]

/-- The `EXTENSIONS` dict of the source in its insertion order. -/
def extensionGroups : List (PStr × List PStr) :=
  [( "TEXT".data, extText), ( "DOCUMENT".data, extDocument),
   ( "IMAGE".data, extImage), ( "AUDIO".data, extAudio),
   ( "DATA".data, extData), ( "SCRIPT".data, extScript),
   ( "ARCHIVE".data, extArchive)]

/-- `get_file_extension_type` of the source. -/
def get_file_extension_type (filename : PStr) : PStr :=
  let ext := get_file_extension filename
  if ext.isEmpty then ( "OTHER".data)
  else
    match extensionGroups.find? (fun g => decide (ext ∈ g.2)) with
    | some g => g.1
    | none => ( "OTHER".data)

example : get_file_extension_type ( "song.mp3".data) = ( "AUDIO".data) := by decide

/-- The class attribute `Storage.allowed_extensions`:
TEXT + DOCUMENT + IMAGE + AUDIO + DATA. -/
def defaultAllowedExtensions : List PStr :=
  extText ++ extDocument ++ extImage ++ extAudio ++ extData

/-- `Storage.__init__` keeps the class-level whitelist unless the
`allowed_extensions` argument is truthy (Python: `if allowed_extensions:`). -/
def storageAllowedInit (arg : Option (List PStr)) : List PStr :=
  match arg with
  | none => defaultAllowedExtensions
  | some l => if l.isEmpty then defaultAllowedExtensions else l

/-! ## The storage facade model

The libcloud driver, the container and the external name helpers are
modelled as oracle parameters; the container contents is the list of the
names of the objects it holds. -/

/-- External collaborators of `Storage.upload`: the driver kind, the
`slugify.slugify` and `werkzeug.utils.secure_filename` functions, and the
stream of `shortuuid.uuid()` results (finite fuel for the retry loop). -/
structure Env where
  isLocal : Bool
  slugifyFn : PStr → PStr
  secureFilename : PStr → PStr
  uuids : List PStr

/-- The source argument of `upload`: a filesystem path string or a
werkzeug `FileStorage` carrying a client filename. -/
inductive FileSrc
  | fpath (p : PStr)
  | fstorage (filename : PStr)
deriving DecidableEq

/-- Fields of a libcloud `Object` descriptor as wrapped by the repository's
`Object` class. -/
structure UObj where
  oname : PStr
  osize : Nat
  ohash : Option PStr
  extra : List (PStr × PStr)
  metaData : List (PStr × PStr)
  cname : PStr
deriving DecidableEq

/-- Derived field: `Object.extension`. -/
def objExtension (o : UObj) : PStr := get_file_extension o.oname

/-- Derived field: `Object.type`. -/
def objType (o : UObj) : PStr := get_file_extension_type o.oname

/-- Derived field: `Object.path` = `"%s/%s" % (container.name, name)`. -/
def objPath (o : UObj) : PStr := o.cname ++ '/' :: o.oname

/-- Backend calls issued by the facade: an existence probe
(`driver.get_object`) or a byte transfer (`upload_object` /
`upload_object_via_stream`). -/
inductive BackendCall
  | checkObject (n : PStr)
  | putObject (n : PStr) (extra : List (PStr × PStr))
deriving DecidableEq

def isPut (c : BackendCall) : Bool :=
  match c with
  | BackendCall.putObject _ _ => true
  | _ => false

/-- Outcome of `upload`: success, `InvalidExtensionError`, or fuel
exhaustion of the disambiguation loop (the loop of the source only
terminates when a fresh uuid is eventually drawn). -/
inductive UpRes
  | ok (o : UObj)
  | invalidExtension
  | diverged
deriving DecidableEq

def resName (r : UpRes) : Option PStr :=
  match r with
  | UpRes.ok o => some o.oname
  | _ => none

/-- First-match lookup in a kwargs mapping. -/
def lookupA (k : PStr) : List (PStr × PStr) → Option PStr
  | [] => none
  | (k2, v) :: rest => if k2 = k then some v else lookupA k rest

/-- Lines 302-304 of the source: default the `acl` entry of the extra
kwargs from the `public` flag when the caller did not pass one. -/
def mkExtra (kwargs : List (PStr × PStr)) (pub : Bool) : List (PStr × PStr) :=
  if (lookupA ( "acl".data) kwargs).isNone then
    kwargs ++ [( "acl".data, if pub then ( "public-read".data) else ( "private".data))]
  else kwargs

/-- Python `s.split(sep)[0]` for a nonempty separator: the part of `s`
before the first occurrence of `sep`, or all of `s`. -/
def splitFirst (sep : PStr) : PStr → PStr
  | [] => []
  | c :: rest =>
    if sep.isPrefixOf (c :: rest) then [] else c :: splitFirst sep rest

/-- The extension resolved by `upload` from its source argument. -/
def resolveExtension (file : FileSrc) : PStr :=
  match file with
  | FileSrc.fpath p => get_file_extension p
  | FileSrc.fstorage fn => get_file_extension fn

/-- Python truthiness of the optional string arguments of `upload`. -/
def isFalsyStr (x : Option PStr) : Bool :=
  match x with
  | none => true
  | some l => l.isEmpty

/-- The name resolved by `upload` (lines 306-315): for a `FileStorage` a
slugified stem of the client filename, for a path its basename, unless an
explicit truthy name was passed. -/
def resolveName (env : Env) (file : FileSrc) (name : Option PStr) : PStr :=
  match file with
  | FileSrc.fstorage fn =>
    if isFalsyStr name then
      let extension := get_file_extension fn
      env.slugifyFn (splitFirst ('.' :: extension) (get_file_name fn))
    else name.getD []
  | FileSrc.fpath p =>
    if isFalsyStr name then get_file_name p else name.getD []

/-- Lines 317-318 of `upload`: append the source extension when the
resolved name has a whitespace-only extension. -/
def uploadName1 (env : Env) (file : FileSrc) (name : Option PStr) : PStr :=
  if (pyStrip isPyWs (get_file_extension (resolveName env file name))).isEmpty
  then resolveName env file name ++ '.' :: resolveExtension file
  else resolveName env file name

/-- Lines 317-323 of `upload`: the extension append, the
`name.strip("/").strip()` step and the local-driver `secure_filename`
sanitisation. -/
def uploadNamed (env : Env) (file : FileSrc) (name : Option PStr) : PStr :=
  if env.isLocal then
    env.secureFilename (pyStrip isPyWs (pyStrip isSlashCh (uploadName1 env file name)))
  else pyStrip isPyWs (pyStrip isSlashCh (uploadName1 env file name))

/-- Lines 325-326 of `upload`: `name = prefix.lstrip("/") + name` when the
prefix is truthy. -/
def applyPfx (pfx : Option PStr) (n : PStr) : PStr :=
  match pfx with
  | some p => if p.isEmpty then n else pyLstrip isSlashCh p ++ n
  | none => n

/-- The loop of `_safe_object_name`, with the uuid stream as fuel.
`fname` and `ext` are computed once from the original name, exactly as in
the source. -/
def safeLoop (objects : List PStr) (fname ext : PStr) (uuids : List PStr)
    (n : PStr) : Option PStr × List BackendCall :=
  if n ∈ objects then
    match uuids with
    | [] => (none, [BackendCall.checkObject n])
    | u :: rest =>
      let r := safeLoop objects fname ext rest
        (fname ++ ('_' :: '_' :: u) ++ ('.' :: ext))
      (r.1, BackendCall.checkObject n :: r.2)
  else (some n, [BackendCall.checkObject n])

/-- `Storage._safe_object_name`. -/
def safeObjectName (objects : List PStr) (uuids : List PStr) (object_name : PStr) :
    Option PStr × List BackendCall :=
  safeLoop objects ((splitext object_name).1) (get_file_extension object_name)
    uuids object_name

/-- Lines 331-332 of `upload`: `if not allowed_extensions:` falls back to
the facade whitelist for `None` and for an empty list alike. -/
def effectiveAllowed (arg : Option (List PStr)) (selfAllowed : List PStr) :
    List PStr :=
  match arg with
  | none => selfAllowed
  | some l => if l.isEmpty then selfAllowed else l

/-- Arguments of `Storage.upload`. -/
structure UpArgs where
  file : FileSrc
  name : Option PStr
  pfx : Option PStr
  allowed : Option (List PStr)
  overwrite : Bool
  pub : Bool
  kwargs : List (PStr × PStr)

/-- `Storage.upload` over the container-contents model: returns the
outcome, the resulting container contents, and the trace of backend
calls.  The whitelist check of lines 331-334 sits after the
disambiguation of lines 328-329 and before the byte transfer of
lines 336-343, exactly as in the source. -/
def upload (env : Env) (selfAllowed : List PStr) (cname : PStr)
    (objects : List PStr) (a : UpArgs) :
    UpRes × List PStr × List BackendCall :=
  match
    (if a.overwrite then
      (some (applyPfx a.pfx (uploadNamed env a.file a.name)),
        ([] : List BackendCall))
    else safeObjectName objects env.uuids
      (applyPfx a.pfx (uploadNamed env a.file a.name))) with
  | (none, tr) => (UpRes.diverged, objects, tr)
  | (some n, tr) =>
    if toLowerL (resolveExtension a.file) ∈ effectiveAllowed a.allowed selfAllowed
    then
      (UpRes.ok ⟨n, 0, none, mkExtra a.kwargs a.pub, [], cname⟩, n :: objects,
        tr ++ [BackendCall.putObject n (mkExtra a.kwargs a.pub)])
    else (UpRes.invalidExtension, objects, tr)

/-- `Storage.create`: builds an in-memory descriptor, touching neither the
driver nor the container. -/
def create (cname : PStr) (objects : List PStr) (object_name : PStr)
    (size : Nat) (hsh : Option PStr) (extra : List (PStr × PStr))
    (meta_data : List (PStr × PStr)) :
    UObj × List PStr × List BackendCall :=
  (⟨object_name, size, hsh, extra, meta_data, cname⟩, objects, [])

/-- A plain oracle environment for concrete evaluation. -/
def envPlain : Env := ⟨false, fun s => s, fun s => s, []⟩

/-! ## Lemmas about the string combinators -/

theorem mem_reverse_iff {x : Char} {l : PStr} : x ∈ l.reverse ↔ x ∈ l := by
  simp

theorem dropWhile_cons_false {p : Char → Bool} {a : Char} {l : PStr}
    (h : p a = false) : (a :: l).dropWhile p = a :: l := by
  simp [List.dropWhile, h]

theorem dropWhile_eq_self_of_all {p : Char → Bool} {l : PStr}
    (h : ∀ c ∈ l, p c = false) : l.dropWhile p = l := by
  cases l with
  | nil => rfl
  | cons a rest => exact dropWhile_cons_false (h a (by simp))

theorem head?_dropWhile_false {p : Char → Bool} {l : PStr} {a : Char}
    (h : (l.dropWhile p).head? = some a) : p a = false := by
  induction l with
  | nil => simp at h
  | cons c rest ih =>
    by_cases hc : p c
    · rw [List.dropWhile_cons_of_pos hc] at h
      exact ih h
    · rw [List.dropWhile_cons_of_neg hc] at h
      simp at h
      subst h
      simpa using hc

theorem mem_dropWhile {p : Char → Bool} {l : PStr} {x : Char}
    (h : x ∈ l.dropWhile p) : x ∈ l :=
  List.Sublist.mem h (List.dropWhile_sublist p)

theorem mem_takeWhile {p : Char → Bool} {l : PStr} {x : Char}
    (h : x ∈ l.takeWhile p) : x ∈ l :=
  List.Sublist.mem h (List.takeWhile_sublist p)

theorem getLast?_append_right {l₁ l₂ : PStr} (h : l₂ ≠ []) :
    (l₁ ++ l₂).getLast? = l₂.getLast? :=
  List.getLast?_append_of_ne_nil l₁ h

theorem head?_append_left {l₁ l₂ : PStr} (h : l₁ ≠ []) :
    (l₁ ++ l₂).head? = l₁.head? :=
  List.head?_append_of_ne_nil l₁ h

theorem getLast?_mem {l : PStr} {a : Char} (h : l.getLast? = some a) : a ∈ l :=
  List.mem_of_mem_getLast? h

/-- Decomposition: a list is its part through the last `c` followed by its
part after the last `c`. -/
theorem dropThroughLast_append_takeAfterLast (c : Char) (l : PStr) :
    dropThroughLast c l ++ takeAfterLast c l = l := by
  unfold dropThroughLast takeAfterLast
  rw [← List.reverse_append, List.takeWhile_append_dropWhile, List.reverse_reverse]

theorem mem_takeAfterLast_ne {c x : Char} {l : PStr}
    (h : x ∈ takeAfterLast c l) : x ≠ c := by
  unfold takeAfterLast at h
  have h2 := mem_reverse_iff.mp h
  have h3 := List.mem_takeWhile_imp h2
  simpa using h3

theorem mem_takeAfterLast_mem {c x : Char} {l : PStr}
    (h : x ∈ takeAfterLast c l) : x ∈ l := by
  unfold takeAfterLast at h
  exact mem_reverse_iff.mp (mem_takeWhile (mem_reverse_iff.mp h))

theorem getLast?_dropThroughLast {c : Char} {l : PStr}
    (h : dropThroughLast c l ≠ []) : (dropThroughLast c l).getLast? = some c := by
  unfold dropThroughLast at h ⊢
  rw [List.getLast?_reverse]
  cases hd : (l.reverse.dropWhile (fun x => x != c)) with
  | nil => rw [hd] at h; simp at h
  | cons a rest =>
    have ha : (fun x => x != c) a = false :=
      @head?_dropWhile_false (fun x => x != c) l.reverse a (by rw [hd]; rfl)
    have ha2 : a = c := by simpa using ha
    rw [ha2]
    rfl

theorem dropTrail_eq_self {p : Char → Bool} {l : PStr} {a : Char}
    (h : l.getLast? = some a) (ha : p a = false) : dropTrail p l = l := by
  unfold dropTrail
  have hr : l.reverse.head? = some a := by rw [List.head?_reverse]; exact h
  cases hrev : l.reverse with
  | nil => rw [hrev] at hr; simp at hr
  | cons b rest =>
    have hb : b = a := by rw [hrev] at hr; simpa using hr
    subst hb
    rw [dropWhile_cons_false ha, ← hrev, List.reverse_reverse]

theorem pyStrip_of_getLast {p : Char → Bool} {l : PStr} {a : Char}
    (h : l.getLast? = some a) (ha : p a = false) :
    pyStrip p l = l.dropWhile p ∧ (pyStrip p l).getLast? = some a ∧
      pyStrip p l ≠ [] := by
  have hne : l.dropWhile p ≠ [] := by
    intro hnil
    have := List.dropWhile_eq_nil_iff.mp hnil a (getLast?_mem h)
    rw [ha] at this
    exact Bool.false_ne_true this
  have hlast : (l.dropWhile p).getLast? = some a := by
    conv at h => rw [← List.takeWhile_append_dropWhile p l]
    rwa [getLast?_append_right hne] at h
  have hstrip : pyStrip p l = l.dropWhile p := by
    unfold pyStrip
    exact dropTrail_eq_self hlast ha
  refine ⟨hstrip, ?_, ?_⟩
  · rw [hstrip]; exact hlast
  · rw [hstrip]; exact hne

theorem pyStrip_eq_self_of_all {p : Char → Bool} {l : PStr}
    (h : ∀ c ∈ l, p c = false) : pyStrip p l = l := by
  cases hl : l.getLast? with
  | none =>
    have : l = [] := by
      cases l with
      | nil => rfl
      | cons a rest => simp [List.getLast?_eq_getLast_of_ne_nil] at hl
    rw [this]; rfl
  | some a =>
    have := pyStrip_of_getLast hl (h a (getLast?_mem hl))
    rw [this.1]
    exact dropWhile_eq_self_of_all h

theorem mem_dropTrail {p : Char → Bool} {l : PStr} {x : Char}
    (h : x ∈ dropTrail p l) : x ∈ l := by
  unfold dropTrail at h
  exact mem_reverse_iff.mp (mem_dropWhile (mem_reverse_iff.mp h))

theorem mem_pyStrip {p : Char → Bool} {l : PStr} {x : Char}
    (h : x ∈ pyStrip p l) : x ∈ l := by
  unfold pyStrip at h
  exact mem_dropWhile (mem_dropTrail h)

/-! ## Structural lemmas about `splitext` and `get_file_extension` -/

theorem splitext_append (p : PStr) : (splitext p).1 ++ (splitext p).2 = p := by
  unfold splitext
  split_ifs with h1 h2
  · simp
  · simp
  · simp only []
    have hlast : (dropThroughLast '.' (takeAfterLast '/' p)).getLast? = some '.' :=
      getLast?_dropThroughLast h1
    have hdec : (dropThroughLast '.' (takeAfterLast '/' p)).dropLast ++ ['.'] =
        dropThroughLast '.' (takeAfterLast '/' p) :=
      List.dropLast_append_getLast? '.' (by simpa using hlast)
    have hmid : (dropThroughLast '.' (takeAfterLast '/' p)).dropLast ++
        ('.' :: takeAfterLast '.' (takeAfterLast '/' p)) = takeAfterLast '/' p := by
      rw [← List.singleton_append, ← List.append_assoc, hdec,
        dropThroughLast_append_takeAfterLast]
    rw [List.append_assoc, hmid, dropThroughLast_append_takeAfterLast]

theorem splitext_snd_shape (p : PStr) :
    (splitext p).2 = [] ∨
      ∃ e, (splitext p).2 = '.' :: e ∧ ∀ x ∈ e, x ≠ '.' ∧ x ≠ '/' := by
  unfold splitext
  split_ifs
  · left; rfl
  · left; rfl
  · right
    refine ⟨takeAfterLast '.' (takeAfterLast '/' p), rfl, ?_⟩
    intro x hx
    exact ⟨mem_takeAfterLast_ne hx, mem_takeAfterLast_ne (mem_takeAfterLast_mem hx)⟩

theorem splitext_fst_ne_nil {p : PStr} (h : (splitext p).2 ≠ []) :
    (splitext p).1 ≠ [] := by
  unfold splitext at h ⊢
  split_ifs at h ⊢ with h1 h2
  · exact absurd rfl h
  · exact absurd rfl h
  · have hd : (dropThroughLast '.' (takeAfterLast '/' p)).dropLast ≠ [] := by
      intro hh
      rw [hh] at h2
      exact h2 rfl
    simp only []
    intro hh
    rcases List.append_eq_nil.mp hh with ⟨_, h4⟩
    exact hd h4

theorem pyToLower_eq_slash {c : Char} (h : pyToLower c = '/') : c = '/' := by
  unfold pyToLower at h
  cases hf : lowerTable.find? (fun q => q.1 == c) with
  | none => rw [hf] at h; exact h
  | some q =>
    rw [hf] at h
    have hq : q ∈ lowerTable := List.mem_of_find?_eq_some hf
    have : ∀ r ∈ lowerTable, r.2 ≠ '/' := by decide
    exact absurd h (this q hq)

theorem mem_gfe_ne_slash {p : PStr} {x : Char}
    (h : x ∈ get_file_extension p) : x ≠ '/' := by
  unfold get_file_extension toLowerL at h
  obtain ⟨y, hy, hxy⟩ := List.mem_map.mp h
  rcases splitext_snd_shape p with h0 | ⟨e, he, hprop⟩
  · rw [h0] at hy
    simp at hy
  · rw [he] at hy
    simp only [List.drop_succ_cons, List.drop_zero] at hy
    intro hx
    rw [hx] at hxy
    exact (hprop y hy).2 (pyToLower_eq_slash hxy)

theorem gfe_structure {p : PStr} (h : get_file_extension p ≠ []) :
    ∃ e, p = (splitext p).1 ++ '.' :: e ∧ e ≠ [] ∧ ∀ x ∈ e, x ≠ '/' := by
  rcases splitext_snd_shape p with h0 | ⟨e, he, hprop⟩
  · exfalso
    apply h
    unfold get_file_extension
    rw [h0]
    rfl
  · refine ⟨e, ?_, ?_, fun x hx => (hprop x hx).2⟩
    · have hsp := splitext_append p
      rw [he] at hsp
      exact hsp.symm
    · intro he2
      apply h
      unfold get_file_extension
      rw [he, he2]
      rfl

theorem gfe_getLast {p : PStr} (h : get_file_extension p ≠ []) :
    ∃ a, p.getLast? = some a ∧ a ≠ '/' ∧ a ∈ p := by
  obtain ⟨e, hp, hne, hslash⟩ := gfe_structure h
  have h1 : p.getLast? = ('.' :: e).getLast? := by
    rw [hp]
    exact getLast?_append_right (by simp)
  have h2 : ('.' :: e).getLast? = e.getLast? := by
    rw [show ('.' :: e) = ['.'] ++ e from rfl]
    exact getLast?_append_right hne
  have hg : e.getLast? = some (e.getLast hne) := List.getLast?_eq_getLast_of_ne_nil hne
  refine ⟨e.getLast hne, by rw [h1, h2, hg], hslash _ (List.getLast_mem hne), ?_⟩
  rw [hp]
  have : e.getLast hne ∈ e := List.getLast_mem hne
  simp [this]

/-- The last character of `'.' :: e` is the dot or lies in `e`. -/
theorem getLast?_dot_cons (e : PStr) :
    ∃ a, ('.' :: e).getLast? = some a ∧ (a = '.' ∨ a ∈ e) := by
  have hne : ('.' :: e) ≠ [] := by simp
  refine ⟨('.' :: e).getLast hne, List.getLast?_eq_getLast_of_ne_nil hne, ?_⟩
  have hm := List.getLast_mem hne
  rcases List.mem_cons.mp hm with h | h
  · exact Or.inl h
  · exact Or.inr h

/-! ## Lemmas about `_safe_object_name` -/

/-- Every name returned by the `_safe_object_name` loop is absent from the
container at its final existence check, and is either the original name or
built from the original root, a double underscore, a drawn uuid and the
original extension. -/
theorem safeLoop_sound (objects : List PStr) (fname ext : PStr) :
    ∀ (uuids : List PStr) (n r : PStr),
      (safeLoop objects fname ext uuids n).1 = some r →
      r ∉ objects ∧
        (r = n ∨ ∃ u, u ∈ uuids ∧ r = fname ++ ('_' :: '_' :: u) ++ ('.' :: ext)) := by
  intro uuids
  induction uuids with
  | nil =>
    intro n r h
    by_cases hn : n ∈ objects
    · rw [safeLoop, if_pos hn] at h
      simp at h
    · rw [safeLoop, if_neg hn] at h
      simp at h
      subst h
      exact ⟨hn, Or.inl rfl⟩
  | cons u rest ih =>
    intro n r h
    by_cases hn : n ∈ objects
    · rw [safeLoop, if_pos hn] at h
      simp only [] at h
      obtain ⟨hnot, hcase⟩ := ih (fname ++ ('_' :: '_' :: u) ++ ('.' :: ext)) r h
      refine ⟨hnot, ?_⟩
      rcases hcase with hc | ⟨u2, hu2, hc⟩
      · exact Or.inr ⟨u, by simp, hc⟩
      · exact Or.inr ⟨u2, by simp [hu2], hc⟩
    · rw [safeLoop, if_neg hn] at h
      simp at h
      subst h
      exact ⟨hn, Or.inl rfl⟩

/-- The `_safe_object_name` loop only issues existence probes, never a byte
transfer. -/
theorem safeLoop_trace_no_put (objects : List PStr) (fname ext : PStr) :
    ∀ (uuids : List PStr) (n : PStr),
      ((safeLoop objects fname ext uuids n).2).filter isPut = [] := by
  intro uuids
  induction uuids with
  | nil =>
    intro n
    by_cases hn : n ∈ objects
    · rw [safeLoop, if_pos hn]
      rfl
    · rw [safeLoop, if_neg hn]
      rfl
  | cons u rest ih =>
    intro n
    by_cases hn : n ∈ objects
    · rw [safeLoop, if_pos hn]
      simp only [List.filter]
      exact ih (fname ++ ('_' :: '_' :: u) ++ ('.' :: ext))
    · rw [safeLoop, if_neg hn]
      rfl

/-! ## Edge-character analysis of the upload name pipeline -/

/-- The resolved source extension never contains `/`. -/
theorem resolveExtension_ne_slash {file : FileSrc} {x : Char}
    (h : x ∈ resolveExtension file) : x ≠ '/' := by
  cases file with
  | fpath p => exact mem_gfe_ne_slash h
  | fstorage fn => exact mem_gfe_ne_slash h

/-- For a whitespace-free string with a non-slash last character, the
slash-then-whitespace strip of `upload` returns the slash-lstripped
string: nonempty, same last character, and no `/` at the front. -/
theorem strip_pipeline (n1 : PStr) (hws : ∀ c ∈ n1, isPyWs c = false)
    {a : Char} (hlast : n1.getLast? = some a) (ha : a ≠ '/') :
    pyStrip isPyWs (pyStrip isSlashCh n1) = n1.dropWhile isSlashCh ∧
      (pyStrip isPyWs (pyStrip isSlashCh n1)).getLast? = some a ∧
      pyStrip isPyWs (pyStrip isSlashCh n1) ≠ [] ∧
      (∀ c, (pyStrip isPyWs (pyStrip isSlashCh n1)).head? = some c → c ≠ '/') := by
  have haS : isSlashCh a = false := by
    unfold isSlashCh
    simpa using ha
  obtain ⟨hS1, hS2, hS3⟩ := pyStrip_of_getLast hlast haS
  have hSws : ∀ c ∈ pyStrip isSlashCh n1, isPyWs c = false :=
    fun c hc => hws c (mem_pyStrip hc)
  have hid : pyStrip isPyWs (pyStrip isSlashCh n1) = pyStrip isSlashCh n1 :=
    pyStrip_eq_self_of_all hSws
  refine ⟨by rw [hid, hS1], by rw [hid]; exact hS2, by rw [hid]; exact hS3, ?_⟩
  intro c hc
  rw [hid, hS1] at hc
  have := head?_dropWhile_false hc
  unfold isSlashCh at this
  simpa using this

/-- The name after the extension-append step is whitespace-free and ends
in a non-slash character, given whitespace-free inputs. -/
theorem uploadName1_edges (env : Env) (file : FileSrc) (name : Option PStr)
    (h1 : ∀ c ∈ resolveName env file name, isPyWs c = false)
    (h2 : ∀ c ∈ resolveExtension file, isPyWs c = false) :
    (∀ c ∈ uploadName1 env file name, isPyWs c = false) ∧
      (∃ a, (uploadName1 env file name).getLast? = some a ∧ a ≠ '/') := by
  unfold uploadName1
  by_cases hc : (pyStrip isPyWs (get_file_extension (resolveName env file name))).isEmpty
  · rw [if_pos hc]
    constructor
    · intro c hcm
      rcases List.mem_append.mp hcm with hm | hm
      · exact h1 c hm
      · rcases List.mem_cons.mp hm with hm2 | hm2
        · rw [hm2]; rfl
        · exact h2 c hm2
    · obtain ⟨a, hget, hcase⟩ := getLast?_dot_cons (resolveExtension file)
      refine ⟨a, ?_, ?_⟩
      · rw [getLast?_append_right (by simp)]
        exact hget
      · rcases hcase with hc2 | hc2
        · rw [hc2]; decide
        · exact resolveExtension_ne_slash hc2
  · rw [if_neg hc]
    have hgne : get_file_extension (resolveName env file name) ≠ [] := by
      intro hnil
      apply hc
      rw [hnil]
      rfl
    obtain ⟨a, hget, hane, _⟩ := gfe_getLast hgne
    exact ⟨h1, a, hget, hane⟩

/-- On a non-local driver the fully processed name (before prefixing and
disambiguation) is nonempty and has no `/` at either end. -/
theorem uploadNamed_edges (env : Env) (file : FileSrc) (name : Option PStr)
    (hl : env.isLocal = false)
    (h1 : ∀ c ∈ resolveName env file name, isPyWs c = false)
    (h2 : ∀ c ∈ resolveExtension file, isPyWs c = false) :
    uploadNamed env file name ≠ [] ∧
      (∀ c, (uploadNamed env file name).head? = some c → c ≠ '/') ∧
      (∃ a, (uploadNamed env file name).getLast? = some a ∧ a ≠ '/') := by
  obtain ⟨hws, a, hget, hane⟩ := uploadName1_edges env file name h1 h2
  obtain ⟨_, hlast, hne, hhead⟩ := strip_pipeline (uploadName1 env file name) hws hget hane
  unfold uploadNamed
  rw [hl]
  simp only [Bool.false_eq_true, if_false]
  exact ⟨hne, hhead, a, hlast, hane⟩

/-- Prefixing with `prefix.lstrip("/") + name` preserves a nonempty,
slash-free-edged name. -/
theorem applyPfx_edges (pfx : Option PStr) (m : PStr) (hne : m ≠ [])
    (hhead : ∀ c, m.head? = some c → c ≠ '/')
    {a : Char} (hlast : m.getLast? = some a) :
    applyPfx pfx m ≠ [] ∧
      (∀ c, (applyPfx pfx m).head? = some c → c ≠ '/') ∧
      (applyPfx pfx m).getLast? = some a := by
  cases pfx with
  | none => exact ⟨hne, hhead, hlast⟩
  | some p =>
    rw [show applyPfx (some p) m =
      (if p.isEmpty then m else pyLstrip isSlashCh p ++ m) from rfl]
    by_cases hp : p.isEmpty
    · rw [if_pos hp]
      exact ⟨hne, hhead, hlast⟩
    · rw [if_neg hp]
      refine ⟨by simp [hne], ?_, by rw [getLast?_append_right hne]; exact hlast⟩
      intro c hc
      cases hq : pyLstrip isSlashCh p with
      | nil =>
        rw [hq] at hc
        exact hhead c (by simpa using hc)
      | cons b bs =>
        rw [hq] at hc
        simp at hc
        subst hc
        have hb : isSlashCh b = false :=
          @head?_dropWhile_false isSlashCh p b (by rw [show p.dropWhile isSlashCh = b :: bs from hq]; rfl)
        unfold isSlashCh at hb
        simpa using hb

/-- The collision-renamed name `root ++ "__" ++ u ++ "." ++ ext` keeps a
non-slash character at both ends when the original name does. -/
theorem renamed_edges (m u : PStr) (hne : m ≠ [])
    (hhead : ∀ c, m.head? = some c → c ≠ '/') :
    ((splitext m).1 ++ ('_' :: '_' :: u) ++ ('.' :: get_file_extension m)) ≠ [] ∧
      (∀ c, ((splitext m).1 ++ ('_' :: '_' :: u) ++
        ('.' :: get_file_extension m)).head? = some c → c ≠ '/') ∧
      (∃ a, ((splitext m).1 ++ ('_' :: '_' :: u) ++
        ('.' :: get_file_extension m)).getLast? = some a ∧ a ≠ '/') := by
  have hroot : (splitext m).1 ≠ [] := by
    by_cases hsnd : (splitext m).2 = []
    · have := splitext_append m
      rw [hsnd, List.append_nil] at this
      rw [this]
      exact hne
    · exact splitext_fst_ne_nil hsnd
  refine ⟨by simp, ?_, ?_⟩
  · intro c hc
    rw [head?_append_left (by simp [hroot]), head?_append_left hroot] at hc
    apply hhead c
    have hm := splitext_append m
    rw [← hm, head?_append_left hroot]
    exact hc
  · obtain ⟨a, hget, hcase⟩ := getLast?_dot_cons (get_file_extension m)
    refine ⟨a, ?_, ?_⟩
    · rw [getLast?_append_right (by simp)]
      exact hget
    · rcases hcase with hc2 | hc2
      · rw [hc2]; decide
      · exact mem_gfe_ne_slash hc2

/-! ## Inversion lemmas for `upload` -/

/-- For a path source the resolved name does not depend on the oracle
environment. -/
theorem resolveName_fpath (env : Env) (p : PStr) (name : Option PStr) :
    resolveName env (FileSrc.fpath p) name =
      (if isFalsyStr name then get_file_name p else name.getD []) := rfl

/-- Inversion of a successful `upload`: the stored object carries the
computed extra mapping and container name, the whitelist check passed,
the object name was appended to the container, and the name came from the
prefix pipeline directly (overwrite) or from `_safe_object_name`. -/
theorem upload_ok_inv (env : Env) (selfAllowed : List PStr) (cname : PStr)
    (objects : List PStr) (a : UpArgs) (o : UObj) (st2 : List PStr)
    (tr : List BackendCall)
    (hup : upload env selfAllowed cname objects a = (UpRes.ok o, st2, tr)) :
    o.extra = mkExtra a.kwargs a.pub ∧ o.cname = cname ∧
      toLowerL (resolveExtension a.file) ∈ effectiveAllowed a.allowed selfAllowed ∧
      st2 = o.oname :: objects ∧
      (a.overwrite = true →
        o.oname = applyPfx a.pfx (uploadNamed env a.file a.name) ∧
        tr = [BackendCall.putObject o.oname o.extra]) ∧
      (a.overwrite = false →
        (safeObjectName objects env.uuids
            (applyPfx a.pfx (uploadNamed env a.file a.name))).1 = some o.oname ∧
        tr = (safeObjectName objects env.uuids
            (applyPfx a.pfx (uploadNamed env a.file a.name))).2 ++
          [BackendCall.putObject o.oname o.extra]) := by
  unfold upload at hup
  cases ho : a.overwrite with
  | true =>
    rw [ho] at hup
    have hup2 :
        (if toLowerL (resolveExtension a.file) ∈
            effectiveAllowed a.allowed selfAllowed then
          (UpRes.ok ⟨applyPfx a.pfx (uploadNamed env a.file a.name), 0, none,
              mkExtra a.kwargs a.pub, [], cname⟩,
            applyPfx a.pfx (uploadNamed env a.file a.name) :: objects,
            ([] : List BackendCall) ++
              [BackendCall.putObject
                (applyPfx a.pfx (uploadNamed env a.file a.name))
                (mkExtra a.kwargs a.pub)])
        else (UpRes.invalidExtension, objects, ([] : List BackendCall))) =
          (UpRes.ok o, st2, tr) := hup
    by_cases hin : toLowerL (resolveExtension a.file) ∈
        effectiveAllowed a.allowed selfAllowed
    · rw [if_pos hin] at hup2
      injection hup2 with hA hrest
      injection hrest with hB hC
      injection hA with hA2
      subst hA2
      refine ⟨rfl, rfl, hin, by rw [← hB], fun _ => ⟨rfl, by rw [← hC]; rfl⟩, ?_⟩
      intro hf
      exact absurd hf (by decide)
    · rw [if_neg hin] at hup2
      injection hup2 with hA hrest
      exact UpRes.noConfusion hA
  | false =>
    rw [ho] at hup
    have hup2 :
        (match safeObjectName objects env.uuids
            (applyPfx a.pfx (uploadNamed env a.file a.name)) with
        | (none, tr2) => (UpRes.diverged, objects, tr2)
        | (some n, tr2) =>
          if toLowerL (resolveExtension a.file) ∈
              effectiveAllowed a.allowed selfAllowed then
            (UpRes.ok ⟨n, 0, none, mkExtra a.kwargs a.pub, [], cname⟩,
              n :: objects,
              tr2 ++ [BackendCall.putObject n (mkExtra a.kwargs a.pub)])
          else (UpRes.invalidExtension, objects, tr2)) =
          (UpRes.ok o, st2, tr) := hup
    rcases hres : safeObjectName objects env.uuids
        (applyPfx a.pfx (uploadNamed env a.file a.name)) with ⟨nro, tr0⟩
    rw [hres] at hup2
    cases nro with
    | none =>
      exact UpRes.noConfusion
        (show UpRes.diverged = UpRes.ok o from congrArg Prod.fst hup2)
    | some n =>
      have hup3 :
          (if toLowerL (resolveExtension a.file) ∈
              effectiveAllowed a.allowed selfAllowed then
            (UpRes.ok ⟨n, 0, none, mkExtra a.kwargs a.pub, [], cname⟩,
              n :: objects,
              tr0 ++ [BackendCall.putObject n (mkExtra a.kwargs a.pub)])
          else (UpRes.invalidExtension, objects, tr0)) =
            (UpRes.ok o, st2, tr) := hup2
      by_cases hin : toLowerL (resolveExtension a.file) ∈
          effectiveAllowed a.allowed selfAllowed
      · rw [if_pos hin] at hup3
        injection hup3 with hA hrest
        injection hrest with hB hC
        injection hA with hA2
        subst hA2
        refine ⟨rfl, rfl, hin, by rw [← hB], ?_, fun _ => ⟨?_, ?_⟩⟩
        · intro ht
          exact absurd ht (by decide)
        · rfl
        · exact hC.symm
      · rw [if_neg hin] at hup3
        injection hup3 with hA hrest
        exact UpRes.noConfusion hA

/-! ## Claim theorems -/

/-- Claim C3 (amended): for every object produced by `upload` on a
non-local driver whose resolved name and resolved source extension contain
no whitespace characters, the object's name neither begins nor ends with
`/`.  (The unamended claim fails when whitespace shields a slash from the
strip step, see the counterexample.) -/
theorem upload_name_no_edge_slash (env : Env) (selfAllowed : List PStr)
    (cname : PStr) (objects : List PStr) (a : UpArgs) (o : UObj)
    (st2 : List PStr) (tr : List BackendCall)
    (hl : env.isLocal = false)
    (h1 : ∀ c ∈ resolveName env a.file a.name, isPyWs c = false)
    (h2 : ∀ c ∈ resolveExtension a.file, isPyWs c = false)
    (hup : upload env selfAllowed cname objects a = (UpRes.ok o, st2, tr)) :
    o.oname.head? ≠ some '/' ∧ o.oname.getLast? ≠ some '/' := by
  obtain ⟨hne0, hhead0, a0, hlast0, ha0⟩ :=
    uploadNamed_edges env a.file a.name hl h1 h2
  obtain ⟨hne4, hhead4, hlast4⟩ :=
    applyPfx_edges a.pfx (uploadNamed env a.file a.name) hne0 hhead0 hlast0
  obtain ⟨_, _, _, _, htrue, hfalse⟩ :=
    upload_ok_inv env selfAllowed cname objects a o st2 tr hup
  have key : (∀ c, o.oname.head? = some c → c ≠ '/') ∧
      (∃ b, o.oname.getLast? = some b ∧ b ≠ '/') := by
    cases ho : a.overwrite with
    | true =>
      obtain ⟨hname, _⟩ := htrue ho
      rw [hname]
      exact ⟨hhead4, a0, hlast4, ha0⟩
    | false =>
      obtain ⟨hsafe, _⟩ := hfalse ho
      have hsound := safeLoop_sound objects
        ((splitext (applyPfx a.pfx (uploadNamed env a.file a.name))).1)
        (get_file_extension (applyPfx a.pfx (uploadNamed env a.file a.name)))
        env.uuids (applyPfx a.pfx (uploadNamed env a.file a.name)) o.oname hsafe
      rcases hsound.2 with heq | ⟨u, _, heq⟩
      · rw [heq]
        exact ⟨hhead4, a0, hlast4, ha0⟩
      · obtain ⟨hrne, hrhead, b, hrlast, hrb⟩ :=
          renamed_edges (applyPfx a.pfx (uploadNamed env a.file a.name)) u
            hne4 hhead4
        rw [heq]
        exact ⟨hrhead, b, hrlast, hrb⟩
  obtain ⟨khead, b, klast, kb⟩ := key
  constructor
  · intro hh
    exact khead '/' hh rfl
  · intro hh
    rw [hh] at klast
    injection klast with hb
    exact kb hb.symm

/-- Claim C3 counterexample: with the explicit name `" /x.txt"` (leading
space before the slash) the strip of `/` happens before the strip of
whitespace, so the produced object name is `"/x.txt"`, which begins with
`/`. -/
theorem upload_leading_slash_counterexample :
    resName (upload envPlain defaultAllowedExtensions ( "c".data) []
      ⟨FileSrc.fpath ( "f.txt".data), some ( " /x.txt".data), none, none,
        true, false, []⟩).1 = some ( "/x.txt".data) ∧
      ( "/x.txt".data).head? = some '/' := by
  constructor
  · decide
  · rfl

/-- Claim C3 witness: a concrete whitespace-free upload to which the
amended theorem applies. -/
theorem upload_name_no_edge_slash_witness :
    (⟨( "x.txt".data), 0, none, [( "acl".data, "private".data)], [],
        ( "c".data)⟩ : UObj).oname.head? ≠ some '/' ∧
      (⟨( "x.txt".data), 0, none, [( "acl".data, "private".data)], [],
        ( "c".data)⟩ : UObj).oname.getLast? ≠ some '/' :=
  upload_name_no_edge_slash envPlain defaultAllowedExtensions ( "c".data) []
    ⟨FileSrc.fpath ( "f.txt".data), some ( "x".data), none, none, true,
      false, []⟩
    ⟨( "x.txt".data), 0, none, [( "acl".data, "private".data)], [],
      ( "c".data)⟩
    [( "x.txt".data)]
    [BackendCall.putObject ( "x.txt".data) [( "acl".data, "private".data)]]
    rfl (by decide) (by decide) (by decide)

/-- Claim C1 (amended): when the lowercased resolved extension is not in
the effective whitelist (the `allowed_extensions` argument if given and
non-empty, else the facade whitelist) and the disambiguation loop
terminates, `upload` fails with `InvalidExtensionError`, leaves the
container contents unchanged, and issues no byte transfer. -/
theorem upload_invalid_extension_rejects (env : Env) (selfAllowed : List PStr)
    (cname : PStr) (objects : List PStr) (a : UpArgs)
    (hnotin : toLowerL (resolveExtension a.file) ∉
      effectiveAllowed a.allowed selfAllowed)
    (hdiv : (upload env selfAllowed cname objects a).1 ≠ UpRes.diverged) :
    (upload env selfAllowed cname objects a).1 = UpRes.invalidExtension ∧
      (upload env selfAllowed cname objects a).2.1 = objects ∧
      ((upload env selfAllowed cname objects a).2.2).filter isPut = [] := by
  cases ho : a.overwrite with
  | true =>
    have hg : upload env selfAllowed cname objects a =
        (if toLowerL (resolveExtension a.file) ∈
            effectiveAllowed a.allowed selfAllowed then
          (UpRes.ok ⟨applyPfx a.pfx (uploadNamed env a.file a.name), 0, none,
              mkExtra a.kwargs a.pub, [], cname⟩,
            applyPfx a.pfx (uploadNamed env a.file a.name) :: objects,
            ([] : List BackendCall) ++
              [BackendCall.putObject
                (applyPfx a.pfx (uploadNamed env a.file a.name))
                (mkExtra a.kwargs a.pub)])
        else (UpRes.invalidExtension, objects, ([] : List BackendCall))) := by
      unfold upload
      rw [ho]
      rfl
    rw [hg, if_neg hnotin]
    exact ⟨rfl, rfl, rfl⟩
  | false =>
    have hg : upload env selfAllowed cname objects a =
        (match safeObjectName objects env.uuids
            (applyPfx a.pfx (uploadNamed env a.file a.name)) with
        | (none, tr2) => (UpRes.diverged, objects, tr2)
        | (some n, tr2) =>
          if toLowerL (resolveExtension a.file) ∈
              effectiveAllowed a.allowed selfAllowed then
            (UpRes.ok ⟨n, 0, none, mkExtra a.kwargs a.pub, [], cname⟩,
              n :: objects,
              tr2 ++ [BackendCall.putObject n (mkExtra a.kwargs a.pub)])
          else (UpRes.invalidExtension, objects, tr2)) := by
      unfold upload
      rw [ho]
      rfl
    rcases hres : safeObjectName objects env.uuids
        (applyPfx a.pfx (uploadNamed env a.file a.name)) with ⟨nro, tr0⟩
    rw [hres] at hg
    cases nro with
    | none =>
      exact absurd
        (show (upload env selfAllowed cname objects a).1 = UpRes.diverged
          from congrArg Prod.fst hg) hdiv
    | some n =>
      have hg2 : upload env selfAllowed cname objects a =
          (if toLowerL (resolveExtension a.file) ∈
              effectiveAllowed a.allowed selfAllowed then
            (UpRes.ok ⟨n, 0, none, mkExtra a.kwargs a.pub, [], cname⟩,
              n :: objects,
              tr0 ++ [BackendCall.putObject n (mkExtra a.kwargs a.pub)])
          else (UpRes.invalidExtension, objects, tr0)) := hg
      rw [hg2, if_neg hnotin]
      refine ⟨rfl, rfl, ?_⟩
      have htr : ((safeObjectName objects env.uuids
          (applyPfx a.pfx (uploadNamed env a.file a.name))).2).filter isPut = [] :=
        safeLoop_trace_no_put objects
          ((splitext (applyPfx a.pfx (uploadNamed env a.file a.name))).1)
          (get_file_extension (applyPfx a.pfx (uploadNamed env a.file a.name)))
          env.uuids (applyPfx a.pfx (uploadNamed env a.file a.name))
      rw [hres] at htr
      exact htr

/-- Claim C1 counterexample: with `allowed_extensions=[]` passed
explicitly, the extension `txt` is not in the given list, yet `upload`
succeeds because Python's `if not allowed_extensions:` treats the empty
list like `None` and falls back to the facade whitelist. -/
theorem upload_empty_whitelist_counterexample :
    resName (upload envPlain defaultAllowedExtensions ( "c".data) []
        ⟨FileSrc.fpath ( "f.txt".data), none, none, some [], true, false,
          []⟩).1 = some ( "f.txt".data) ∧
      toLowerL (resolveExtension (FileSrc.fpath ( "f.txt".data))) ∉
        ([] : List PStr) :=
  ⟨by decide, by decide⟩

/-- Claim C1 witness: a concrete `.js` upload against the default
whitelist is rejected with the container untouched. -/
theorem upload_invalid_extension_rejects_witness :
    (upload envPlain defaultAllowedExtensions ( "c".data) [ "a.txt".data]
        ⟨FileSrc.fpath ( "f.js".data), none, none, none, true, false,
          []⟩).1 = UpRes.invalidExtension ∧
      (upload envPlain defaultAllowedExtensions ( "c".data) [ "a.txt".data]
        ⟨FileSrc.fpath ( "f.js".data), none, none, none, true, false,
          []⟩).2.1 = [ "a.txt".data] ∧
      ((upload envPlain defaultAllowedExtensions ( "c".data) [ "a.txt".data]
        ⟨FileSrc.fpath ( "f.js".data), none, none, none, true, false,
          []⟩).2.2).filter isPut = [] :=
  upload_invalid_extension_rejects envPlain defaultAllowedExtensions
    ( "c".data) [ "a.txt".data]
    ⟨FileSrc.fpath ( "f.js".data), none, none, none, true, false, []⟩
    (by decide) (by decide)

/-- Claim C2 (amended): `upload` joins prefix and name by plain
concatenation of the `/`-lstripped prefix with the name: no separator is
inserted, so a trailing `/` on the prefix is required to obtain one. -/
theorem upload_prefix_concatenation (env : Env) (hl : env.isLocal = false)
    (p : PStr) (hp : p ≠ []) (cname : PStr) (objects : List PStr) :
    resName (upload env defaultAllowedExtensions cname objects
        ⟨FileSrc.fpath ( "f.txt".data), some ( "x".data), some p, none,
          true, false, []⟩).1 =
      some (pyLstrip isSlashCh p ++ ( "x.txt".data)) := by
  have hnamed : uploadNamed env (FileSrc.fpath ( "f.txt".data))
      (some ( "x".data)) = ( "x.txt".data) := by
    unfold uploadNamed uploadName1
    rw [hl, resolveName_fpath]
    simp only [Bool.false_eq_true, if_false]
    decide
  have hpe : p.isEmpty = false := by
    cases p with
    | nil => exact absurd rfl hp
    | cons b l => rfl
  have happ : applyPfx (some p) ( "x.txt".data) =
      pyLstrip isSlashCh p ++ ( "x.txt".data) := by
    rw [show applyPfx (some p) ( "x.txt".data) =
      (if p.isEmpty then ( "x.txt".data)
       else pyLstrip isSlashCh p ++ ( "x.txt".data)) from rfl, hpe]
    rfl
  have hg : upload env defaultAllowedExtensions cname objects
      ⟨FileSrc.fpath ( "f.txt".data), some ( "x".data), some p, none, true,
        false, []⟩ =
      (if toLowerL (resolveExtension (FileSrc.fpath ( "f.txt".data))) ∈
          effectiveAllowed none defaultAllowedExtensions then
        (UpRes.ok ⟨applyPfx (some p) (uploadNamed env
            (FileSrc.fpath ( "f.txt".data)) (some ( "x".data))), 0, none,
            mkExtra [] false, [], cname⟩,
          applyPfx (some p) (uploadNamed env (FileSrc.fpath ( "f.txt".data))
            (some ( "x".data))) :: objects,
          ([] : List BackendCall) ++
            [BackendCall.putObject (applyPfx (some p) (uploadNamed env
                (FileSrc.fpath ( "f.txt".data)) (some ( "x".data))))
              (mkExtra [] false)])
      else (UpRes.invalidExtension, objects, ([] : List BackendCall))) := rfl
  rw [hg, if_pos (by decide)]
  rw [show resName (UpRes.ok ⟨applyPfx (some p) (uploadNamed env
      (FileSrc.fpath ( "f.txt".data)) (some ( "x".data))), 0, none,
      mkExtra [] false, [], cname⟩) =
    some (applyPfx (some p) (uploadNamed env (FileSrc.fpath ( "f.txt".data))
      (some ( "x".data)))) from rfl]
  rw [hnamed, happ]

/-- Claim C2 counterexample: `upload(path, name="x", prefix="a/b/c")`
produces `"a/b/cx.txt"`, not the `"a/b/c/x.txt"` promised by the claim. -/
theorem upload_prefix_concat_counterexample :
    resName (upload envPlain defaultAllowedExtensions ( "c".data) []
        ⟨FileSrc.fpath ( "f.txt".data), some ( "x".data),
          some ( "a/b/c".data), none, true, false, []⟩).1 =
      some ( "a/b/cx.txt".data) ∧
      ( "a/b/cx.txt".data) ≠ ( "a/b/c/x.txt".data) :=
  ⟨by decide, by decide⟩

/-- Claim C2 witness: with a trailing slash on the prefix the
concatenation yields the directory-style name. -/
theorem upload_prefix_concatenation_witness :
    resName (upload envPlain defaultAllowedExtensions ( "c".data) []
        ⟨FileSrc.fpath ( "f.txt".data), some ( "x".data),
          some ( "a/b/c/".data), none, true, false, []⟩).1 =
      some (pyLstrip isSlashCh ( "a/b/c/".data) ++ ( "x.txt".data)) ∧
      pyLstrip isSlashCh ( "a/b/c/".data) ++ ( "x.txt".data) =
        ( "a/b/c/x.txt".data) :=
  ⟨upload_prefix_concatenation envPlain rfl ( "a/b/c/".data) (by decide)
    ( "c".data) [], by decide⟩

/-- A name absent from the container is returned unchanged by the
`_safe_object_name` loop after a single existence probe. -/
theorem safeLoop_not_mem (objects : List PStr) (fname ext : PStr)
    (uuids : List PStr) (n : PStr) (h : n ∉ objects) :
    safeLoop objects fname ext uuids n = (some n, [BackendCall.checkObject n]) := by
  cases uuids with
  | nil => rw [safeLoop, if_neg h]
  | cons u us => rw [safeLoop, if_neg h]

/-- One unrolling of `_safe_object_name` on a present name: probe, rename
with the first uuid, continue. -/
theorem safeObjectName_mem_step (objects : List PStr) (u : PStr)
    (us : List PStr) (n : PStr) (h : n ∈ objects) :
    safeObjectName objects (u :: us) n =
      ((safeLoop objects (splitext n).1 (get_file_extension n) us
          ((splitext n).1 ++ ('_' :: '_' :: u) ++
            ('.' :: get_file_extension n))).1,
        BackendCall.checkObject n ::
          (safeLoop objects (splitext n).1 (get_file_extension n) us
            ((splitext n).1 ++ ('_' :: '_' :: u) ++
              ('.' :: get_file_extension n))).2) := by
  unfold safeObjectName
  rw [safeLoop, if_pos h]

/-- A successful `upload` without overwrite, given the
`_safe_object_name` outcome. -/
theorem upload_of_safe (env : Env) (selfAllowed : List PStr) (cname : PStr)
    (objects : List PStr) (a : UpArgs) (ho : a.overwrite = false)
    (n : PStr) (tr0 : List BackendCall)
    (hres : safeObjectName objects env.uuids
      (applyPfx a.pfx (uploadNamed env a.file a.name)) = (some n, tr0))
    (hin : toLowerL (resolveExtension a.file) ∈
      effectiveAllowed a.allowed selfAllowed) :
    upload env selfAllowed cname objects a =
      (UpRes.ok ⟨n, 0, none, mkExtra a.kwargs a.pub, [], cname⟩,
        n :: objects,
        tr0 ++ [BackendCall.putObject n (mkExtra a.kwargs a.pub)]) := by
  have hg : upload env selfAllowed cname objects a =
      (match safeObjectName objects env.uuids
          (applyPfx a.pfx (uploadNamed env a.file a.name)) with
      | (none, tr2) => (UpRes.diverged, objects, tr2)
      | (some n2, tr2) =>
        if toLowerL (resolveExtension a.file) ∈
            effectiveAllowed a.allowed selfAllowed then
          (UpRes.ok ⟨n2, 0, none, mkExtra a.kwargs a.pub, [], cname⟩,
            n2 :: objects,
            tr2 ++ [BackendCall.putObject n2 (mkExtra a.kwargs a.pub)])
        else (UpRes.invalidExtension, objects, tr2)) := by
    unfold upload
    rw [ho]
    rfl
  rw [hg, hres]
  exact if_pos hin

/-- Claim C4: (i) every name returned by `_safe_object_name` is absent
from the container at the instant of its final existence check; (ii) two
identical non-overwrite uploads give the derived name, then the name
`{base}__{uuid}.{ext}` built from the first upload's base, distinct from
the first, provided the first drawn uuid yields a fresh name. -/
theorem upload_disambiguation (env : Env) (selfAllowed : List PStr)
    (cname : PStr) (objects : List PStr) (a : UpArgs)
    (ho : a.overwrite = false)
    (hm : applyPfx a.pfx (uploadNamed env a.file a.name) ∉ objects)
    (hin : toLowerL (resolveExtension a.file) ∈
      effectiveAllowed a.allowed selfAllowed)
    (u : PStr) (us : List PStr) (hu : env.uuids = u :: us)
    (hfresh : (splitext (applyPfx a.pfx (uploadNamed env a.file a.name))).1 ++
        ('_' :: '_' :: u) ++
        ('.' :: get_file_extension (applyPfx a.pfx (uploadNamed env a.file a.name)))
      ∉ applyPfx a.pfx (uploadNamed env a.file a.name) :: objects) :
    (∀ (objects2 : List PStr) (uuids : List PStr) (n r : PStr),
        (safeObjectName objects2 uuids n).1 = some r → r ∉ objects2) ∧
      resName (upload env selfAllowed cname objects a).1 =
        some (applyPfx a.pfx (uploadNamed env a.file a.name)) ∧
      (upload env selfAllowed cname objects a).2.1 =
        applyPfx a.pfx (uploadNamed env a.file a.name) :: objects ∧
      resName (upload env selfAllowed cname
          ((upload env selfAllowed cname objects a).2.1) a).1 =
        some ((splitext (applyPfx a.pfx (uploadNamed env a.file a.name))).1 ++
          ('_' :: '_' :: u) ++
          ('.' :: get_file_extension
            (applyPfx a.pfx (uploadNamed env a.file a.name)))) ∧
      (splitext (applyPfx a.pfx (uploadNamed env a.file a.name))).1 ++
          ('_' :: '_' :: u) ++
          ('.' :: get_file_extension
            (applyPfx a.pfx (uploadNamed env a.file a.name))) ≠
        applyPfx a.pfx (uploadNamed env a.file a.name) := by
  have hfirstSafe : safeObjectName objects env.uuids
      (applyPfx a.pfx (uploadNamed env a.file a.name)) =
      (some (applyPfx a.pfx (uploadNamed env a.file a.name)),
        [BackendCall.checkObject (applyPfx a.pfx (uploadNamed env a.file a.name))]) :=
    safeLoop_not_mem objects _ _ env.uuids _ hm
  have hfirst := upload_of_safe env selfAllowed cname objects a ho _ _
    hfirstSafe hin
  have hsecondSafe : safeObjectName
      (applyPfx a.pfx (uploadNamed env a.file a.name) :: objects) env.uuids
      (applyPfx a.pfx (uploadNamed env a.file a.name)) =
      (some ((splitext (applyPfx a.pfx (uploadNamed env a.file a.name))).1 ++
          ('_' :: '_' :: u) ++
          ('.' :: get_file_extension
            (applyPfx a.pfx (uploadNamed env a.file a.name)))),
        [BackendCall.checkObject (applyPfx a.pfx (uploadNamed env a.file a.name)),
          BackendCall.checkObject
            ((splitext (applyPfx a.pfx (uploadNamed env a.file a.name))).1 ++
              ('_' :: '_' :: u) ++
              ('.' :: get_file_extension
                (applyPfx a.pfx (uploadNamed env a.file a.name))))]) := by
    rw [hu, safeObjectName_mem_step _ _ _ _ (List.mem_cons_self _ _),
      safeLoop_not_mem _ _ _ _ _ hfresh]
  have hsecond := upload_of_safe env selfAllowed cname
    (applyPfx a.pfx (uploadNamed env a.file a.name) :: objects) a ho _ _
    hsecondSafe hin
  refine ⟨?_, ?_, ?_, ?_, ?_⟩
  · intro objects2 uuids n r hr
    exact (safeLoop_sound objects2 _ _ uuids n r hr).1
  · rw [hfirst]
    rfl
  · rw [hfirst]
  · rw [show (upload env selfAllowed cname objects a).2.1 =
      applyPfx a.pfx (uploadNamed env a.file a.name) :: objects
      from by rw [hfirst]]
    rw [hsecond]
    rfl
  · intro hh
    apply hfresh
    rw [hh]
    exact List.mem_cons_self _ _

/-- A two-uuid oracle environment for the disambiguation witness. -/
def envTwo : Env := ⟨false, fun s => s, fun s => s, [ "u1".data, "u2".data]⟩

/-- Arguments of the disambiguation witness: same source, no overwrite. -/
def argsTwo : UpArgs :=
  ⟨FileSrc.fpath ( "f.txt".data), some ( "x".data), none, none, false,
    false, []⟩

/-- Claim C4 witness: first upload stores `x.txt`, the second stores
`x__u1.txt`, a distinct name. -/
theorem upload_disambiguation_witness :
    resName (upload envTwo defaultAllowedExtensions ( "c".data) []
        argsTwo).1 = some ( "x.txt".data) ∧
      resName (upload envTwo defaultAllowedExtensions ( "c".data)
          ((upload envTwo defaultAllowedExtensions ( "c".data) []
            argsTwo).2.1) argsTwo).1 = some ( "x__u1.txt".data) ∧
      ( "x__u1.txt".data) ≠ ( "x.txt".data) := by
  have h := upload_disambiguation envTwo defaultAllowedExtensions
    ( "c".data) [] argsTwo rfl (by decide) (by decide) ( "u1".data)
    [ "u2".data] rfl (by decide)
  refine ⟨?_, ?_, by decide⟩
  · exact h.2.1.trans (congrArg some (by decide))
  · exact h.2.2.2.1.trans (congrArg some (by decide))

/-! ## `get` / `contains` error mapping (C5) -/

/-- Errors raised by the libcloud driver: the dedicated
`ObjectDoesNotExistError`, or any other driver-layer error. -/
inductive DriverErr
  | objectDoesNotExist
  | otherError (code : Nat)
deriving DecidableEq

/-- `Storage.__contains__`: probe `driver.get_object`, swallow only
`ObjectDoesNotExistError` into `False`; other errors propagate. -/
def storageContains (drv : PStr → Except DriverErr UObj) (n : PStr) :
    Except DriverErr Bool :=
  match drv n with
  | Except.ok _ => Except.ok true
  | Except.error DriverErr.objectDoesNotExist => Except.ok false
  | Except.error e => Except.error e

/-- `Storage.get`: `if object_name in self: return Object(...)` else
`None`; the wrapped fetch re-queries the driver. -/
def storageGet (drv : PStr → Except DriverErr UObj) (n : PStr) :
    Except DriverErr (Option UObj) :=
  match storageContains drv n with
  | Except.ok true =>
    match drv n with
    | Except.ok o => Except.ok (some o)
    | Except.error e => Except.error e
  | Except.ok false => Except.ok none
  | Except.error e => Except.error e

/-- Claim C5: `get` returns `None` exactly when the driver reports
object-does-not-exist, `contains` returns `false` exactly then, and any
other driver error propagates unchanged from both. -/
theorem get_contains_not_found_mapping
    (drv : PStr → Except DriverErr UObj) (n : PStr) :
    (storageGet drv n = Except.ok none ↔
      drv n = Except.error DriverErr.objectDoesNotExist) ∧
      (storageContains drv n = Except.ok false ↔
        drv n = Except.error DriverErr.objectDoesNotExist) ∧
      (∀ code, drv n = Except.error (DriverErr.otherError code) →
        storageGet drv n = Except.error (DriverErr.otherError code) ∧
          storageContains drv n = Except.error (DriverErr.otherError code)) := by
  cases hd : drv n with
  | ok o =>
    refine ⟨?_, ?_, ?_⟩
    · simp [storageGet, storageContains, hd]
    · simp [storageContains, hd]
    · intro code hc
      exact absurd hc (by simp)
  | error e =>
    cases e with
    | objectDoesNotExist =>
      refine ⟨?_, ?_, ?_⟩
      · simp [storageGet, storageContains, hd]
      · simp [storageContains, hd]
      · intro code hc
        simp at hc
    | otherError c2 =>
      refine ⟨?_, ?_, ?_⟩
      · simp [storageGet, storageContains, hd]
      · simp [storageContains, hd]
      · intro code hc
        simp at hc
        subst hc
        constructor
        · simp [storageGet, storageContains, hd]
        · simp [storageContains, hd]

/-- Claim C5 witness: a driver reporting not-found maps to `ok none` /
`ok false`, and a driver reporting another error propagates it. -/
theorem get_contains_not_found_mapping_witness :
    storageGet (fun _ => Except.error DriverErr.objectDoesNotExist)
        ( "a.txt".data) = Except.ok none ∧
      storageContains (fun _ => Except.error DriverErr.objectDoesNotExist)
        ( "a.txt".data) = Except.ok false ∧
      storageGet (fun _ => Except.error (DriverErr.otherError 7))
        ( "a.txt".data) = Except.error (DriverErr.otherError 7) := by
  refine ⟨?_, ?_, ?_⟩
  · exact (get_contains_not_found_mapping
      (fun _ => Except.error DriverErr.objectDoesNotExist)
      ( "a.txt".data)).1.mpr rfl
  · exact (get_contains_not_found_mapping
      (fun _ => Except.error DriverErr.objectDoesNotExist)
      ( "a.txt".data)).2.1.mpr rfl
  · exact ((get_contains_not_found_mapping
      (fun _ => Except.error (DriverErr.otherError 7))
      ( "a.txt".data)).2.2 7 rfl).1

/-! ## The `fileExtension` specification (C6) -/

/-- The claim's reading of `fileExtension`: the lowercase substring after
the last `.` of the whole filename, empty when there is no dot. -/
def specFileExtensionClaim (f : PStr) : PStr :=
  if ('.' : Char) ∈ f then toLowerL (takeAfterLast '.' f) else []

/-- The amended reading: the lowercase substring after the last `.`,
provided that dot lies in the final `/`-separated component and at least
one non-dot character of that component precedes it; empty otherwise. -/
def specFileExtensionAmended (f : PStr) : PStr :=
  if ('.' : Char) ∈ takeAfterLast '/' f ∧
      (∃ x ∈ (dropThroughLast '.' (takeAfterLast '/' f)).dropLast, x ≠ '.')
  then toLowerL (takeAfterLast '.' f) else []

theorem dropThroughLast_eq_nil_iff (c : Char) (l : PStr) :
    dropThroughLast c l = [] ↔ c ∉ l := by
  unfold dropThroughLast
  rw [List.reverse_eq_nil_iff, List.dropWhile_eq_nil_iff]
  constructor
  · intro h hc
    have := h c (by simpa using hc)
    simp at this
  · intro h x hx
    simp only [bne_iff_ne, ne_eq]
    intro hxc
    exact h (by rw [← hxc]; simpa using hx)

theorem takeWhile_append_of_exists_false {p : Char → Bool} {xs : PStr}
    (ys : PStr) (h : ∃ x ∈ xs, p x = false) :
    (xs ++ ys).takeWhile p = xs.takeWhile p := by
  induction xs with
  | nil =>
    obtain ⟨x, hx, _⟩ := h
    simp at hx
  | cons b rest ih =>
    by_cases hp : p b
    · rw [List.cons_append, List.takeWhile_cons_of_pos hp,
        List.takeWhile_cons_of_pos hp]
      congr 1
      apply ih
      obtain ⟨x, hx, hxf⟩ := h
      rcases List.mem_cons.mp hx with h1 | h1
      · rw [h1] at hxf
        rw [hxf] at hp
        exact absurd hp (by decide)
      · exact ⟨x, h1, hxf⟩
    · rw [List.cons_append, List.takeWhile_cons_of_neg hp,
        List.takeWhile_cons_of_neg hp]

theorem takeAfterLast_append_right (c : Char) (l1 l2 : PStr) (h : c ∈ l2) :
    takeAfterLast c (l1 ++ l2) = takeAfterLast c l2 := by
  unfold takeAfterLast
  rw [List.reverse_append,
    takeWhile_append_of_exists_false l1.reverse ⟨c, by simpa using h, by simp⟩]

theorem takeAfterLast_dot_base (f : PStr)
    (h : ('.' : Char) ∈ takeAfterLast '/' f) :
    takeAfterLast '.' f = takeAfterLast '.' (takeAfterLast '/' f) := by
  conv_lhs => rw [← dropThroughLast_append_takeAfterLast '/' f]
  exact takeAfterLast_append_right '.' _ _ h

/-- Claim C6 (amended): `fileExtension` equals the amended specification
on all inputs, and the claim's own example holds. -/
theorem gfe_amended_spec :
    (∀ f : PStr, get_file_extension f = specFileExtensionAmended f) ∧
      get_file_extension ( "hello.JPG".data) = ( "jpg".data) := by
  refine ⟨?_, by decide⟩
  intro f
  unfold specFileExtensionAmended
  by_cases hdot : ('.' : Char) ∈ takeAfterLast '/' f
  · by_cases hnd : ∃ x ∈ (dropThroughLast '.' (takeAfterLast '/' f)).dropLast,
        x ≠ '.'
    · rw [if_pos ⟨hdot, hnd⟩]
      have h1 : dropThroughLast '.' (takeAfterLast '/' f) ≠ [] := by
        rw [Ne, dropThroughLast_eq_nil_iff]
        exact not_not_intro hdot
      have h2 : ¬ ((dropThroughLast '.' (takeAfterLast '/' f)).dropLast.all
          (fun c => c == '.') = true) := by
        intro hall
        obtain ⟨x, hx, hxne⟩ := hnd
        exact hxne (by simpa using List.all_eq_true.mp hall x hx)
      unfold get_file_extension splitext
      rw [if_neg h1, if_neg h2]
      simp only [List.drop_succ_cons, List.drop_zero]
      rw [takeAfterLast_dot_base f hdot]
    · rw [if_neg (fun hcon => hnd hcon.2)]
      have h1 : dropThroughLast '.' (takeAfterLast '/' f) ≠ [] := by
        rw [Ne, dropThroughLast_eq_nil_iff]
        exact not_not_intro hdot
      have h2 : (dropThroughLast '.' (takeAfterLast '/' f)).dropLast.all
          (fun c => c == '.') = true := by
        rw [List.all_eq_true]
        intro x hx
        by_contra hxx
        exact hnd ⟨x, hx, by simpa using hxx⟩
      unfold get_file_extension splitext
      rw [if_neg h1, if_pos h2]
      rfl
  · rw [if_neg (fun hcon => hdot hcon.1)]
    have h1 : dropThroughLast '.' (takeAfterLast '/' f) = [] :=
      (dropThroughLast_eq_nil_iff _ _).mpr hdot
    unfold get_file_extension splitext
    rw [if_pos h1]
    rfl

/-- Claim C6 counterexample: on `".gitignore"` the claim demands
`"gitignore"`, the code returns the empty extension. -/
theorem gfe_spec_counterexample :
    specFileExtensionClaim ( ".gitignore".data) = ( "gitignore".data) ∧
      get_file_extension ( ".gitignore".data) = [] ∧
      get_file_extension ( ".gitignore".data) ≠
        specFileExtensionClaim ( ".gitignore".data) :=
  ⟨by decide, by decide, by decide⟩

/-! ## The Cloudfiles secure-URL rewrite (C7)

`Object.get_url` with `secure=True` on a Cloudfiles driver parses the
native URL, replaces the second DNS label, and then calls
`urlunparse('https', netloc, path, params, query, fragment)` — six
positional arguments, where `urllib`'s `urlunparse` accepts a single
6-component sequence.  That call raises `TypeError` unconditionally. -/

/-- Python outcomes of the rewrite: a value, a `TypeError`, or an
`IndexError` (netloc with fewer than two labels). -/
inductive PyResult (α : Type)
  | ok (a : α)
  | typeError
  | indexError
deriving DecidableEq

/-- The six components produced by `urlparse`. -/
structure ParsedUrl where
  scheme : PStr
  netloc : PStr
  upath : PStr
  uparams : PStr
  uquery : PStr
  ufragment : PStr

/-- Split at the first occurrence of `sep`, if any. -/
def breakOnSub (sep : PStr) : PStr → Option (PStr × PStr)
  | [] => none
  | c :: rest =>
    if sep.isPrefixOf (c :: rest) then some ([], (c :: rest).drop sep.length)
    else
      match breakOnSub sep rest with
      | some (x, y) => some (c :: x, y)
      | none => none

/-- `urllib.parse.urlparse`, modelled for absolute URLs of the shape
`scheme://netloc/path?query#fragment` without `;`-parameters (the shapes
produced by the Cloudfiles CDN). -/
def urlparseM (url : PStr) : ParsedUrl :=
  match breakOnSub ( "://".data) url with
  | some (sch, rest) =>
    ⟨toLowerL sch,
      rest.takeWhile (fun c => !(c == '/' || c == '?' || c == '#')),
      ((rest.dropWhile (fun c => !(c == '/' || c == '?' || c == '#'))).takeWhile
        (fun c => !(c == '#'))).takeWhile (fun c => !(c == '?')),
      [],
      (((rest.dropWhile (fun c => !(c == '/' || c == '?' || c == '#'))).takeWhile
        (fun c => !(c == '#'))).dropWhile (fun c => !(c == '?'))).drop 1,
      ((rest.dropWhile (fun c => !(c == '/' || c == '?' || c == '#'))).dropWhile
        (fun c => !(c == '#'))).drop 1⟩
  | none => ⟨[], [], url, [], [], []⟩

/-- Python `netloc.split('.')`. -/
def splitAll (c : Char) : PStr → List PStr
  | [] => [[]]
  | a :: rest =>
    match splitAll c rest with
    | [] => [[]]
    | g :: gs => if a = c then [] :: g :: gs else (a :: g) :: gs

/-- Python `'.'.join(parts)`. -/
def joinDot : List PStr → PStr
  | [] => []
  | [x] => x
  | x :: xs => x ++ '.' :: joinDot xs

/-- `urllib.parse.urlunparse` takes one 6-component sequence; the call in
`Object.get_url` passes six separate positional arguments, so Python
raises `TypeError` before any URL is assembled. -/
def urlunparseSix (_s _n _p _pr _q _f : PStr) : PyResult PStr :=
  PyResult.typeError

/-- The `secure` Cloudfiles branch of `Object.get_url` (lines 453-466):
return the URL untouched unless its scheme is `http`; otherwise replace
the second netloc label by `ssl` and call `urlunparse` with six
positional arguments. -/
def getUrlSecureCloudfiles (url : PStr) : PyResult PStr :=
  if (urlparseM url).scheme ≠ ( "http".data) then PyResult.ok url
  else if (splitAll '.' (urlparseM url).netloc).length ≤ 1 then
    PyResult.indexError
  else
    urlunparseSix ( "https".data)
      (joinDot ((splitAll '.' (urlparseM url).netloc).set 1 ( "ssl".data)))
      (urlparseM url).upath (urlparseM url).uparams (urlparseM url).uquery
      (urlparseM url).ufragment

/-- Claim C7 (code bug): on an `http` Cloudfiles URL the secure rewrite
raises `TypeError` — `urlunparse` is called with six positional arguments
instead of one 6-tuple — and never returns the rewritten URL the claim
describes. -/
theorem cloudfiles_secure_url_type_error :
    getUrlSecureCloudfiles
        ( "http://storage101.dfw1.clouddrive.com/v1/MossoCloudFS/hello.txt".data) =
      PyResult.typeError ∧
      (∀ s : PStr, getUrlSecureCloudfiles
        ( "http://storage101.dfw1.clouddrive.com/v1/MossoCloudFS/hello.txt".data) ≠
        PyResult.ok s) := by
  have h1 : getUrlSecureCloudfiles
      ( "http://storage101.dfw1.clouddrive.com/v1/MossoCloudFS/hello.txt".data) =
      PyResult.typeError := by decide
  refine ⟨h1, ?_⟩
  intro s hs
  rw [h1] at hs
  exact PyResult.noConfusion hs

/-! ## `create` (C8) -/

/-- Claim C8: `create` issues no backend call and leaves the container
untouched; two calls with the same arguments agree on name, extension,
category and path. -/
theorem create_idempotent_no_backend (cname : PStr) (objects : List PStr)
    (object_name : PStr) (size : Nat) (hsh : Option PStr)
    (extra meta_data : List (PStr × PStr)) :
    (create cname objects object_name size hsh extra meta_data).2.2 = [] ∧
      (create cname
        (create cname objects object_name size hsh extra meta_data).2.1
        object_name size hsh extra meta_data).2.2 = [] ∧
      (create cname objects object_name size hsh extra meta_data).2.1 =
        objects ∧
      (create cname
        (create cname objects object_name size hsh extra meta_data).2.1
        object_name size hsh extra meta_data).2.1 = objects ∧
      (create cname objects object_name size hsh extra meta_data).1.oname =
        (create cname
          (create cname objects object_name size hsh extra meta_data).2.1
          object_name size hsh extra meta_data).1.oname ∧
      objExtension (create cname objects object_name size hsh extra
          meta_data).1 =
        objExtension (create cname
          (create cname objects object_name size hsh extra meta_data).2.1
          object_name size hsh extra meta_data).1 ∧
      objType (create cname objects object_name size hsh extra meta_data).1 =
        objType (create cname
          (create cname objects object_name size hsh extra meta_data).2.1
          object_name size hsh extra meta_data).1 ∧
      objPath (create cname objects object_name size hsh extra meta_data).1 =
        objPath (create cname
          (create cname objects object_name size hsh extra meta_data).2.1
          object_name size hsh extra meta_data).1 :=
  ⟨rfl, rfl, rfl, rfl, rfl, rfl, rfl, rfl⟩

/-! ## The default whitelist (C9) -/

/-- Claim C9: a facade built without an explicit whitelist allows exactly
the union of the TEXT, DOCUMENT, IMAGE, AUDIO and DATA categories; every
SCRIPT and ARCHIVE extension is excluded. -/
theorem default_whitelist_union :
    (∀ e : PStr, e ∈ storageAllowedInit none ↔
        (e ∈ extText ∨ e ∈ extDocument ∨ e ∈ extImage ∨ e ∈ extAudio ∨
          e ∈ extData)) ∧
      (∀ e ∈ extScript, e ∉ storageAllowedInit none) ∧
      (∀ e ∈ extArchive, e ∉ storageAllowedInit none) := by
  refine ⟨?_, by decide, by decide⟩
  intro e
  show e ∈ defaultAllowedExtensions ↔ _
  unfold defaultAllowedExtensions
  simp [List.mem_append, or_assoc]

/-- Claim C9 witness: `js` and `gz` are rejected by the default
whitelist, `txt` is allowed. -/
theorem default_whitelist_union_witness :
    ( "js".data) ∉ storageAllowedInit none ∧
      ( "gz".data) ∉ storageAllowedInit none ∧
      ( "txt".data) ∈ storageAllowedInit none :=
  ⟨default_whitelist_union.2.1 ( "js".data) (by decide),
    default_whitelist_union.2.2 ( "gz".data) (by decide),
    (default_whitelist_union.1 ( "txt".data)).mpr (Or.inl (by decide))⟩

/-! ## The default acl (C10) -/

theorem lookupA_append_none {k : PStr} {kw : List (PStr × PStr)}
    (h : lookupA k kw = none) (v : PStr) :
    lookupA k (kw ++ [(k, v)]) = some v := by
  induction kw with
  | nil => simp [lookupA]
  | cons q rest ih =>
    rw [lookupA] at h
    by_cases hk : q.1 = k
    · rw [if_pos hk] at h
      exact Option.noConfusion h
    · rw [if_neg hk] at h
      rw [List.cons_append, show lookupA k ((q.1, q.2) :: (rest ++ [(k, v)])) =
        (if q.1 = k then some q.2 else lookupA k (rest ++ [(k, v)])) from rfl]
      rw [if_neg hk]
      exact ih h

/-- Claim C10: when the caller passes no `acl` entry and `public` is
false, the extra mapping stored with the object and sent with the byte
transfer maps `acl` to the string `"private"`. -/
theorem upload_default_acl_private (env : Env) (selfAllowed : List PStr)
    (cname : PStr) (objects : List PStr) (a : UpArgs) (o : UObj)
    (st2 : List PStr) (tr : List BackendCall)
    (hacl : lookupA ( "acl".data) a.kwargs = none)
    (hpub : a.pub = false)
    (hup : upload env selfAllowed cname objects a = (UpRes.ok o, st2, tr)) :
    lookupA ( "acl".data) o.extra = some ( "private".data) ∧
      tr.filter isPut = [BackendCall.putObject o.oname o.extra] := by
  obtain ⟨hex, _, _, _, htrue, hfalse⟩ :=
    upload_ok_inv env selfAllowed cname objects a o st2 tr hup
  have hextra : o.extra = a.kwargs ++ [( "acl".data, ( "private".data))] := by
    rw [hex]
    unfold mkExtra
    rw [hacl, hpub]
    rfl
  constructor
  · rw [hextra]
    exact lookupA_append_none hacl ( "private".data)
  · cases ho : a.overwrite with
    | true =>
      obtain ⟨_, htr⟩ := htrue ho
      rw [htr]
      rfl
    | false =>
      obtain ⟨_, htr⟩ := hfalse ho
      rw [htr, List.filter_append]
      have htr0 : ((safeObjectName objects env.uuids
          (applyPfx a.pfx (uploadNamed env a.file a.name))).2).filter isPut =
          [] :=
        safeLoop_trace_no_put objects _ _ env.uuids _
      rw [htr0]
      rfl

/-- Claim C10 witness: a concrete upload with no `acl` kwarg and
`public=False` stores and sends `acl=private`. -/
theorem upload_default_acl_private_witness :
    lookupA ( "acl".data)
        [( "acl".data, ( "private".data))] = some ( "private".data) ∧
      ([BackendCall.putObject ( "f.txt".data)
          [( "acl".data, ( "private".data))]].filter isPut) =
        [BackendCall.putObject ( "f.txt".data)
          [( "acl".data, ( "private".data))]] :=
  upload_default_acl_private envPlain defaultAllowedExtensions ( "c".data) []
    ⟨FileSrc.fpath ( "f.txt".data), none, none, none, true, false, []⟩
    ⟨( "f.txt".data), 0, none, [( "acl".data, ( "private".data))], [],
      ( "c".data)⟩
    [( "f.txt".data)]
    [BackendCall.putObject ( "f.txt".data)
      [( "acl".data, ( "private".data))]]
    rfl rfl (by decide)

end FlaskCloudy
